import Mathlib

/-!
Shallow embedding of the MENTILIVE live-poll front end
(src/components/PollPresenter.tsx and src/components/PollParticipant.tsx),
together with proofs about its aggregation and validation behaviour.

JavaScript objects used as string-keyed maps are modelled as association
lists in key-insertion order; `Array.prototype.sort` (stable in ES2019)
is modelled as a stable insertion sort with the same comparator.
-/

namespace MentiLive

/-- A raw response value (the `response_data` column): either a string
(multiple-choice option text, word-cloud token, open-ended text) or a
number (rating).  JavaScript strict equality on these values is plain
structural equality. -/
inductive Value where
  | str (s : String)
  | num (n : Int)
deriving DecidableEq

/-- The presenter-side question type union
(PollPresenter.tsx, interface Question). -/
inductive QuestionType where
  | multiple_choice
  | word_cloud
  | rating
  | open_ended
deriving DecidableEq

/-- PollPresenter.tsx, interface Question. -/
structure Question where
  id : String
  question_type : QuestionType
  question_text : String
  options : Option (List String)
  order_index : Nat
deriving DecidableEq

/-- The presenter component state that the claims are about:
`currentQuestionIndex`, the fetched `questions`, the per-question
`responses` map (JS object, insertion-ordered) and `participantCount`
(PollPresenter.tsx, useState hooks). -/
structure PresenterState where
  currentQuestionIndex : Nat
  questions : List Question
  responses : List (String × List Value)
  participantCount : Nat
deriving DecidableEq

/-- Keys of an association list (JS `Object.keys`). -/
def keysOf {β : Type} (m : List (String × β)) : List String :=
  m.map Prod.fst

/-- `responses[qid] || []` (PollPresenter.tsx line 155/179/373). -/
def lookupList (m : List (String × List Value)) (k : String) : List Value :=
  match m with
  | [] => []
  | (k', vs) :: rest => if k' = k then vs else lookupList rest k

/-- `updated[qid].push(v)`, creating the array first when missing
(PollPresenter.tsx lines 88-94): append `v` to the list stored under
`k`, inserting a new key at the end of the object when absent. -/
def pushToKey (m : List (String × List Value)) (k : String) (v : Value) :
    List (String × List Value) :=
  match m with
  | [] => [(k, [v])]
  | (k', vs) :: rest =>
      if k' = k then (k', vs ++ [v]) :: rest else (k', vs) :: pushToKey rest k v

/-- One INSERT event delivered by the realtime subscription
(PollPresenter.tsx lines 76-101).  The supabase channel filter
`question_id=in.(questionIds)` only delivers events whose question id
belongs to the presentation; a delivered event appends the payload to
that question entry of `responses` and increments `participantCount`. -/
def onResponseInsert (st : PresenterState) (qid : String) (v : Value) :
    PresenterState :=
  if qid ∈ st.questions.map Question.id then
    { st with
        responses := pushToKey st.responses qid v,
        participantCount := st.participantCount + 1 }
  else st

/-- A stream of INSERT events applied in order. -/
def applyEvents (st : PresenterState) (evs : List (String × Value)) :
    PresenterState :=
  evs.foldl (fun s e => onResponseInsert s e.1 e.2) st

/-- `fetchResponses` (PollPresenter.tsx lines 112-135): group the fetched
rows by `question_id` in row order and set `participantCount` to
`data.length`. -/
def groupResponses (data : List (String × Value)) : List (String × List Value) :=
  data.foldl (fun m r => pushToKey m r.1 r.2) []

/-- The state after `fetchResponses` ran on freshly fetched rows. -/
def fetchResponsesUpdate (st : PresenterState) (data : List (String × Value)) :
    PresenterState :=
  { st with responses := groupResponses data, participantCount := data.length }

/-- Total number of response records held in a responses map. -/
def respTotal (m : List (String × List Value)) : Nat :=
  (m.map (fun p => p.2.length)).sum

/-- Total number of response records held across all questions of the
`responses` map. -/
def totalResponses (st : PresenterState) : Nat :=
  respTotal st.responses

/-- `nextQuestion` (PollPresenter.tsx lines 140-144). -/
def nextQuestion (st : PresenterState) : PresenterState :=
  if st.currentQuestionIndex < st.questions.length - 1 then
    { st with currentQuestionIndex := st.currentQuestionIndex + 1 }
  else st

/-- `prevQuestion` (PollPresenter.tsx lines 146-150). -/
def prevQuestion (st : PresenterState) : PresenterState :=
  if 0 < st.currentQuestionIndex then
    { st with currentQuestionIndex := st.currentQuestionIndex - 1 }
  else st

/-- The question currently displayed:
`questions[currentQuestionIndex]` (PollPresenter.tsx line 33). -/
def currentQuestionId (st : PresenterState) : Option String :=
  (st.questions[st.currentQuestionIndex]?).map Question.id

/-- `counts[option] = responses.filter(r => r === option).length`
written into a JS object: assign value `v` under key `k`, updating the
existing entry in place or appending a fresh key. -/
def setKey (m : List (String × Nat)) (k : String) (v : Nat) :
    List (String × Nat) :=
  match m with
  | [] => [(k, v)]
  | (k', v') :: rest =>
      if k' = k then (k, v) :: rest else (k', v') :: setKey rest k v

/-- The multiple-choice branch of `getChartData`
(PollPresenter.tsx lines 157-163). -/
def mcCounts (options : List String) (resp : List Value) :
    List (String × Nat) :=
  options.foldl (fun m o => setKey m o (resp.count (Value.str o))) []

/-- The rating branch of `getChartData` (PollPresenter.tsx lines 164-170):
counts for the fixed keys 1..10 in ascending key order, rendered with
string names by `Object.entries`. -/
def ratingChart (resp : List Value) : List (String × Nat) :=
  (List.range' 1 10).map (fun i => (toString i, resp.count (Value.num (Int.ofNat i))))

/-- `getChartData` (PollPresenter.tsx lines 152-174), as a function of the
current question and its response list. -/
def getChartData (q : Question) (resp : List Value) : List (String × Nat) :=
  match q.question_type with
  | QuestionType.multiple_choice => mcCounts (q.options.getD []) resp
  | QuestionType.rating => ratingChart resp
  | _ => []

/-- `counts[word] = (counts[word] || 0) + 1` (PollPresenter.tsx line 183):
increment the count stored under `w`, appending a fresh key with count 1
when absent. -/
def bump (m : List (String × Nat)) (w : String) : List (String × Nat) :=
  match m with
  | [] => [(w, 1)]
  | (k, c) :: rest =>
      if k = w then (k, c + 1) :: rest else (k, c) :: bump rest w

/-- The word-count object built by `getWordCloudData`
(PollPresenter.tsx lines 180-184): fold every raw response word into the
counts object, with no lower-casing and no trimming. -/
def wcCounts (responses : List String) : List (String × Nat) :=
  responses.foldl bump []

/-- Insert an entry into a count-descending list, after every strictly
greater count and before equal ones: one step of a stable descending
sort, matching the JS comparator `(a, b) => b.count - a.count`. -/
def insertDesc (x : String × Nat) : List (String × Nat) → List (String × Nat)
  | [] => [x]
  | y :: ys => if x.2 < y.2 then y :: insertDesc x ys else x :: y :: ys

/-- Stable sort by descending count, modelling the (ES2019-stable)
`Array.prototype.sort` call of `getWordCloudData`
(PollPresenter.tsx line 188). -/
def sortByCountDesc : List (String × Nat) → List (String × Nat)
  | [] => []
  | x :: xs => insertDesc x (sortByCountDesc xs)

/-- Decimal value of a digit string (used for the JS array-index key
order). -/
def strNatValue (s : String) : Nat :=
  s.data.foldl (fun n c => n * 10 + (c.toNat - 48)) 0

/-- Whether a string is a JS array index: the canonical decimal form
(digits only, no leading zero except the string 0 itself) of an integer
below 2 ^ 32 - 1.  Such object keys are enumerated before all other
string keys, in ascending numeric order. -/
def isArrayIndex (s : String) : Bool :=
  (!s.data.isEmpty) && s.data.all Char.isDigit
    && (s == "0" || !(s.data.head? == some '0'))
    && decide (strNatValue s < 4294967295)

/-- Insert an entry into a list ascending by numeric key value, after
every entry with a smaller-or-equal value: one step of a stable
ascending sort. -/
def insertAsc (x : String × Nat) : List (String × Nat) → List (String × Nat)
  | [] => [x]
  | y :: ys =>
      if strNatValue y.1 ≤ strNatValue x.1 then y :: insertAsc x ys
      else x :: y :: ys

/-- Stable sort of entries ascending by the numeric value of their
key. -/
def sortByNumAsc : List (String × Nat) → List (String × Nat)
  | [] => []
  | x :: xs => insertAsc x (sortByNumAsc xs)

/-- `Object.entries` enumeration order of a JS string-keyed object:
array-index keys first, in ascending numeric order, then the remaining
keys in insertion order. -/
def jsEntries (m : List (String × Nat)) : List (String × Nat) :=
  sortByNumAsc (m.filter (fun p => isArrayIndex p.1))
    ++ m.filter (fun p => !isArrayIndex p.1)

/-- `getWordCloudData` (PollPresenter.tsx lines 176-190): count the raw
words, enumerate the entries of the counts object in JS key order, sort
by descending count (stable) and keep the first 10 entries
(`slice(0, 10)`). -/
def getWordCloudData (responses : List String) : List (String × Nat) :=
  (sortByCountDesc (jsEntries (wcCounts responses))).take 10

/-- First-seen key list of a word sequence: every distinct word once, in
order of its first occurrence. -/
def firstKeys : List String → List String
  | [] => []
  | w :: rest => w :: (firstKeys rest).filter (fun k => k ≠ w)

/-- Index of the first occurrence of a word in a sequence (length of the
sequence when absent). -/
def firstIdx : List String → String → Nat
  | [], _ => 0
  | a :: l, w => if a = w then 0 else firstIdx l w + 1

/-- The participant-side question type union
(PollParticipant.tsx, mockQuestions). -/
inductive PQType where
  | multipleChoice
  | scale
  | wordCloud
  | openText
deriving DecidableEq

/-- Outcome of `submitAnswer` (PollParticipant.tsx lines 68-104): either
the destructive Answer Required toast with an early return, or the
submission proceeding (`setHasAnswered(true)` and the success toast). -/
inductive SubmitResult where
  | answerRequired
  | accepted
deriving DecidableEq

/-- JavaScript `String.prototype.trim`: drop leading and trailing
whitespace characters. -/
def jsTrim (s : String) : String :=
  ⟨((s.data.dropWhile Char.isWhitespace).reverse.dropWhile Char.isWhitespace).reverse⟩

/-- `submitAnswer` validation (PollParticipant.tsx lines 68-88): for the
text question kinds an all-whitespace `textAnswer` is rejected, for the
other kinds only a missing `selectedAnswer` is rejected; every other
submission proceeds.  No range check of any kind is performed on the
selected value. -/
def submitAnswer (qtype : PQType) (textAnswer : String)
    (selectedAnswer : Option Value) : SubmitResult :=
  match qtype with
  | PQType.openText | PQType.wordCloud =>
      if jsTrim textAnswer = "" then SubmitResult.answerRequired
      else SubmitResult.accepted
  | _ =>
      if selectedAnswer.isNone then SubmitResult.answerRequired
      else SubmitResult.accepted

/-- A concrete multiple-choice question used in concrete scenarios. -/
def q0 : Question :=
  ⟨"q0", QuestionType.multiple_choice, "favorite option", some ["A", "B"], 0⟩

/-- A concrete word-cloud question used in concrete scenarios. -/
def q1 : Question :=
  ⟨"q1", QuestionType.word_cloud, "one word", none, 1⟩

/-- A concrete rating question used in concrete scenarios. -/
def qRating : Question :=
  ⟨"qr", QuestionType.rating, "satisfaction", none, 0⟩

/-- A concrete presenter state: two questions, current index 0, no
responses received yet. -/
def st0 : PresenterState :=
  ⟨0, [q0, q1], [], 0⟩

theorem wcCounts_append_singleton (l : List String) (w : String) :
    wcCounts (l ++ [w]) = bump (wcCounts l) w := by
  simp [wcCounts, List.foldl_append]

theorem keysOf_map_key (ks : List String) (c : String → Nat) :
    keysOf (ks.map (fun k => (k, c k))) = ks := by
  induction ks with
  | nil => rfl
  | cons a ks ih =>
      simp only [keysOf, List.map_cons] at ih ⊢
      rw [ih]

theorem bump_of_not_mem (m : List (String × Nat)) (w : String)
    (h : w ∉ keysOf m) : bump m w = m ++ [(w, 1)] := by
  induction m with
  | nil => rfl
  | cons p rest ih =>
      obtain ⟨k, cnt⟩ := p
      rw [show keysOf ((k, cnt) :: rest) = k :: keysOf rest from rfl] at h
      have hk : ¬ k = w := by
        intro h'
        exact h (by rw [h']; exact List.mem_cons_self _ _)
      have hr : w ∉ keysOf rest := fun h' => h (List.mem_cons_of_mem _ h')
      simp [bump, hk, ih hr]

theorem bump_map_of_mem (ks : List String) (c : String → Nat) (w : String)
    (hnd : ks.Nodup) (hw : w ∈ ks) :
    bump (ks.map (fun k => (k, c k))) w
      = ks.map (fun k => (k, if k = w then c k + 1 else c k)) := by
  induction ks with
  | nil => cases hw
  | cons a ks ih =>
      rcases List.nodup_cons.mp hnd with ⟨ha, hnd'⟩
      by_cases haw : a = w
      · subst haw
        simp only [List.map_cons, bump, if_pos rfl, ite_true]
        refine congrArg _ ?_
        apply List.map_congr_left
        intro k hk
        have hka : ¬ k = a := fun h => ha (h ▸ hk)
        simp [hka]
      · have hw' : w ∈ ks := by
          rcases List.mem_cons.mp hw with h | h
          · exact absurd h.symm haw
          · exact h
        simp [bump, haw, ih hnd' hw']

theorem mem_firstKeys (k : String) (l : List String) :
    k ∈ firstKeys l ↔ k ∈ l := by
  induction l with
  | nil => simp [firstKeys]
  | cons a l ih =>
      by_cases hka : k = a
      · subst hka
        simp [firstKeys]
      · simp [firstKeys, List.mem_filter, hka, ih]

theorem nodup_firstKeys (l : List String) : (firstKeys l).Nodup := by
  induction l with
  | nil => simp [firstKeys]
  | cons a l ih =>
      refine List.nodup_cons.mpr ⟨?_, List.Nodup.filter _ ih⟩
      intro hmem
      rcases List.mem_filter.mp hmem with ⟨-, hdec⟩
      simp at hdec

theorem firstKeys_append_singleton (l : List String) (w : String) :
    firstKeys (l ++ [w]) = firstKeys l ++ if w ∈ l then [] else [w] := by
  induction l with
  | nil => simp [firstKeys]
  | cons a l ih =>
      by_cases hw : w ∈ l
      · have hw' : w ∈ a :: l := List.mem_cons_of_mem a hw
        simp [firstKeys, ih, hw, hw']
      · by_cases hwa : w = a
        · subst hwa
          simp [firstKeys, ih, hw, List.filter_append]
        · have hw' : w ∉ a :: l := by
            simp [hwa, hw]
          simp [firstKeys, ih, hw, hw', List.filter_append, hwa, Ne.symm hwa]

theorem wcCounts_eq (l : List String) :
    wcCounts l = (firstKeys l).map (fun w => (w, l.count w)) := by
  induction l using List.reverseRecOn with
  | nil => rfl
  | append_singleton l w ih =>
      rw [wcCounts_append_singleton, ih, firstKeys_append_singleton]
      by_cases hw : w ∈ l
      · rw [if_pos hw, List.append_nil]
        have hfk : w ∈ firstKeys l := (mem_firstKeys w l).mpr hw
        rw [bump_map_of_mem _ _ _ (nodup_firstKeys l) hfk]
        apply List.map_congr_left
        intro k hk
        by_cases hkw : k = w
        · subst hkw
          simp [List.count_append, List.count_singleton]
        · simp [hkw, List.count_append, List.count_singleton, Ne.symm hkw]
      · rw [if_neg hw]
        have hfk : w ∉ keysOf ((firstKeys l).map (fun k => (k, l.count k))) := by
          rw [keysOf_map_key]
          exact fun h => hw ((mem_firstKeys w l).mp h)
        rw [bump_of_not_mem _ _ hfk, List.map_append]
        congr 1
        · apply List.map_congr_left
          intro k hk
          have hkl : k ∈ l := (mem_firstKeys k l).mp hk
          have hkw : ¬ w = k := fun h => hw (h ▸ hkl)
          simp [List.count_append, List.count_singleton, hkw]
        · simp [List.count_append, List.count_singleton,
                List.count_eq_zero_of_not_mem hw]

theorem mem_insertDesc (x z : String × Nat) (l : List (String × Nat)) :
    z ∈ insertDesc x l ↔ z = x ∨ z ∈ l := by
  induction l with
  | nil => simp [insertDesc]
  | cons y ys ih =>
      by_cases h : x.2 < y.2
      · simp only [insertDesc, if_pos h, List.mem_cons, ih]
        tauto
      · simp only [insertDesc, if_neg h, List.mem_cons]

theorem mem_sortByCountDesc (z : String × Nat) (l : List (String × Nat)) :
    z ∈ sortByCountDesc l ↔ z ∈ l := by
  induction l with
  | nil => simp [sortByCountDesc]
  | cons x xs ih =>
      simp [sortByCountDesc, mem_insertDesc, ih]

theorem insertDesc_pairwise (r : (String × Nat) → (String × Nat) → Prop)
    (x : String × Nat) (l : List (String × Nat))
    (hl : l.Pairwise (fun a b => b.2 < a.2 ∨ (a.2 = b.2 ∧ r a b)))
    (hx : ∀ y ∈ l, x.2 < y.2 ∨ (y.2 < x.2 ∨ (x.2 = y.2 ∧ r x y))) :
    (insertDesc x l).Pairwise
      (fun a b => b.2 < a.2 ∨ (a.2 = b.2 ∧ r a b)) := by
  induction l with
  | nil => simp [insertDesc]
  | cons y ys ih =>
      rcases List.pairwise_cons.mp hl with ⟨hy, hys⟩
      by_cases hxy : x.2 < y.2
      · rw [insertDesc, if_pos hxy]
        refine List.pairwise_cons.mpr ⟨?_, ?_⟩
        · intro z hz
          rcases (mem_insertDesc x z ys).mp hz with rfl | hzy
          · exact Or.inl hxy
          · exact hy z hzy
        · exact ih hys (fun y' hy' => hx y' (List.mem_cons_of_mem _ hy'))
      · rw [insertDesc, if_neg hxy]
        refine List.pairwise_cons.mpr ⟨?_, hl⟩
        intro z hz
        rcases List.mem_cons.mp hz with rfl | hzy
        · rcases hx z (List.mem_cons_self _ _) with h | h
          · exact absurd h hxy
          · exact h
        · rcases hx z (List.mem_cons_of_mem _ hzy) with h | h
          · have hzys : z.2 < y.2 ∨ (y.2 = z.2 ∧ r y z) := hy z hzy
            rcases hzys with h2 | ⟨h2, -⟩ <;> omega
          · exact h

theorem sortByCountDesc_pairwise (r : (String × Nat) → (String × Nat) → Prop)
    (l : List (String × Nat)) (h : l.Pairwise r) :
    (sortByCountDesc l).Pairwise
      (fun a b => b.2 < a.2 ∨ (a.2 = b.2 ∧ r a b)) := by
  induction l with
  | nil => simp [sortByCountDesc]
  | cons x xs ih =>
      rcases List.pairwise_cons.mp h with ⟨hx, hxs⟩
      refine insertDesc_pairwise r x _ (ih hxs) ?_
      intro y hy
      have hy' : y ∈ xs := (mem_sortByCountDesc y xs).mp hy
      have hf := hx y hy'
      rcases Nat.lt_trichotomy x.2 y.2 with h1 | h1 | h1
      · exact Or.inl h1
      · exact Or.inr (Or.inr ⟨h1, hf⟩)
      · exact Or.inr (Or.inl h1)

theorem mem_insertAsc (x z : String × Nat) (l : List (String × Nat)) :
    z ∈ insertAsc x l ↔ z = x ∨ z ∈ l := by
  induction l with
  | nil => simp [insertAsc]
  | cons y ys ih =>
      by_cases h : strNatValue y.1 ≤ strNatValue x.1
      · simp only [insertAsc, if_pos h, List.mem_cons, ih]
        tauto
      · simp only [insertAsc, if_neg h, List.mem_cons]

theorem insertAsc_perm (x : String × Nat) (l : List (String × Nat)) :
    (insertAsc x l).Perm (x :: l) := by
  induction l with
  | nil => simp [insertAsc]
  | cons y ys ih =>
      by_cases h : strNatValue y.1 ≤ strNatValue x.1
      · rw [insertAsc, if_pos h]
        exact (ih.cons y).trans (List.Perm.swap x y ys)
      · rw [insertAsc, if_neg h]

theorem sortByNumAsc_perm (l : List (String × Nat)) :
    (sortByNumAsc l).Perm l := by
  induction l with
  | nil => simp [sortByNumAsc]
  | cons x xs ih =>
      exact (insertAsc_perm x (sortByNumAsc xs)).trans (ih.cons x)

theorem insertAsc_pairwise (x : String × Nat) (l : List (String × Nat))
    (hl : l.Pairwise (fun a b => strNatValue a.1 ≤ strNatValue b.1)) :
    (insertAsc x l).Pairwise
      (fun a b => strNatValue a.1 ≤ strNatValue b.1) := by
  induction l with
  | nil => simp [insertAsc]
  | cons y ys ih =>
      rcases List.pairwise_cons.mp hl with ⟨hy, hys⟩
      by_cases h : strNatValue y.1 ≤ strNatValue x.1
      · rw [insertAsc, if_pos h]
        refine List.pairwise_cons.mpr ⟨?_, ih hys⟩
        intro z hz
        rcases (mem_insertAsc x z ys).mp hz with rfl | hzy
        · exact h
        · exact hy z hzy
      · rw [insertAsc, if_neg h]
        refine List.pairwise_cons.mpr ⟨?_, hl⟩
        intro z hz
        rcases List.mem_cons.mp hz with rfl | hzy
        · omega
        · have := hy z hzy
          omega

theorem sortByNumAsc_pairwise (l : List (String × Nat)) :
    (sortByNumAsc l).Pairwise
      (fun a b => strNatValue a.1 ≤ strNatValue b.1) := by
  induction l with
  | nil => simp [sortByNumAsc]
  | cons x xs ih => exact insertAsc_pairwise x _ ih

theorem jsEntries_perm (m : List (String × Nat)) :
    (jsEntries m).Perm m := by
  unfold jsEntries
  exact ((sortByNumAsc_perm _).append (List.Perm.refl _)).trans
    (List.filter_append_perm _ m)

theorem pairwise_firstIdx_firstKeys (l : List String) :
    (firstKeys l).Pairwise (fun a b => firstIdx l a < firstIdx l b) := by
  induction l with
  | nil => simp [firstKeys]
  | cons a l ih =>
      refine List.pairwise_cons.mpr ⟨?_, ?_⟩
      · intro b hb
        rcases List.mem_filter.mp hb with ⟨hbmem, hdec⟩
        have hba : ¬ b = a := by simpa using hdec
        have hab : ¬ a = b := fun h => hba h.symm
        simp [firstIdx, hab]
      · have hfilter := List.Pairwise.filter (fun k => k ≠ a) ih
        refine hfilter.imp_of_mem ?_
        intro x y hx hy hxy
        have hxa : ¬ x = a := by simpa using (List.mem_filter.mp hx).2
        have hya : ¬ y = a := by simpa using (List.mem_filter.mp hy).2
        have hax : ¬ a = x := fun h => hxa h.symm
        have hay : ¬ a = y := fun h => hya h.symm
        simp only [firstIdx, if_neg hax, if_neg hay]
        omega

/-- C1: the claim states that word-cloud values are lower-cased and
trimmed before merging, so that the responses Fun, fun, great aggregate
to fun 2, great 1.  The code (getWordCloudData, PollPresenter.tsx lines
176-190) counts the raw strings with no normalization, so the stated
aggregate is not produced. -/
theorem C1_counterexample :
    getWordCloudData ["Fun", "fun", "great"] ≠ [("fun", 2), ("great", 1)] := by
  decide

/-- C1 amended: the word-cloud aggregate merges values by exact raw
string equality (case-sensitive, untrimmed): every entry counts the
responses exactly equal to its word, and the responses Fun, fun, great
aggregate to Fun 1, fun 1, great 1. -/
theorem C1_amended :
    (∀ (l : List String), ∀ p ∈ getWordCloudData l, p.2 = l.count p.1) ∧
    getWordCloudData ["Fun", "fun", "great"]
      = [("Fun", 1), ("fun", 1), ("great", 1)] := by
  constructor
  · intro l p hp
    have h1 : p ∈ sortByCountDesc (jsEntries (wcCounts l)) :=
      (List.take_sublist 10 _).mem hp
    have h2 : p ∈ wcCounts l :=
      (jsEntries_perm (wcCounts l)).mem_iff.mp ((mem_sortByCountDesc p _).mp h1)
    rw [wcCounts_eq] at h2
    rcases List.mem_map.mp h2 with ⟨w, hw, rfl⟩
    rfl
  · decide

/-- C1 witness: the amended statement applied to the concrete scenario,
first entry. -/
theorem C1_witness :
    (("Fun", 1) : String × Nat).2
      = ["Fun", "fun", "great"].count (("Fun", 1) : String × Nat).1 :=
  C1_amended.1 ["Fun", "fun", "great"] ("Fun", 1) (by decide)

/-- C2: the claim states that equal-count entries are ordered by
first-seen order of their token for every input sequence.  JS
enumerates array-index object keys (such as the token 5) before all
other keys, so for the responses zebra, 5 the aggregate lists 5 before
zebra although zebra was seen first and the counts are equal: the
stated tie-break fails. -/
theorem C2_counterexample :
    getWordCloudData ["zebra", "5"] = [("5", 1), ("zebra", 1)] ∧
    ¬ (getWordCloudData ["zebra", "5"]).Pairwise
        (fun a b => a.2 = b.2 →
          firstIdx ["zebra", "5"] a.1 < firstIdx ["zebra", "5"] b.1) := by
  decide

/-- C2 amended: for every input sequence the aggregate has at most 10
entries and is sorted by descending count; entries of equal count
appear in the JS key-enumeration order of their tokens: array-index
tokens first, in ascending numeric order, then the remaining tokens in
first-seen order of the response sequence. -/
theorem C2_amended (responses : List String) :
    (getWordCloudData responses).length ≤ 10 ∧
    (getWordCloudData responses).Pairwise (fun a b => b.2 ≤ a.2) ∧
    (getWordCloudData responses).Pairwise (fun a b => a.2 = b.2 →
      (isArrayIndex b.1 = true →
        isArrayIndex a.1 = true ∧ strNatValue a.1 ≤ strNatValue b.1) ∧
      (isArrayIndex a.1 = false →
        isArrayIndex b.1 = false ∧
          firstIdx responses a.1 < firstIdx responses b.1)) := by
  have hwc : (wcCounts responses).Pairwise
      (fun a b => firstIdx responses a.1 < firstIdx responses b.1) := by
    rw [wcCounts_eq]
    exact (List.pairwise_map).mpr (pairwise_firstIdx_firstKeys responses)
  have hnum : ∀ p ∈ sortByNumAsc
      ((wcCounts responses).filter (fun q => isArrayIndex q.1)),
      isArrayIndex p.1 = true := by
    intro p hp
    have hp' := (sortByNumAsc_perm _).mem_iff.mp hp
    exact (List.mem_filter.mp hp').2
  have hnon : ∀ p ∈ (wcCounts responses).filter (fun q => !isArrayIndex q.1),
      isArrayIndex p.1 = false := by
    intro p hp
    have hb := (List.mem_filter.mp hp).2
    simpa using hb
  have hE : (jsEntries (wcCounts responses)).Pairwise
      (fun a b =>
        (isArrayIndex b.1 = true →
          isArrayIndex a.1 = true ∧ strNatValue a.1 ≤ strNatValue b.1) ∧
        (isArrayIndex a.1 = false →
          isArrayIndex b.1 = false ∧
            firstIdx responses a.1 < firstIdx responses b.1)) := by
    unfold jsEntries
    refine List.pairwise_append.mpr ⟨?_, ?_, ?_⟩
    · refine (sortByNumAsc_pairwise _).imp_of_mem ?_
      intro a b ha hb hle
      refine ⟨fun _ => ⟨hnum a ha, hle⟩, fun hfa => ?_⟩
      rw [hnum a ha] at hfa
      simp at hfa
    · refine (List.Pairwise.filter _ hwc).imp_of_mem ?_
      intro a b ha hb hlt
      refine ⟨fun hfb => ?_, fun _ => ⟨hnon b hb, hlt⟩⟩
      rw [hnon b hb] at hfb
      simp at hfb
    · intro a ha b hb
      refine ⟨fun hfb => ?_, fun hfa => ?_⟩
      · rw [hnon b hb] at hfb
        simp at hfb
      · rw [hnum a ha] at hfa
        simp at hfa
  have hs := sortByCountDesc_pairwise _ _ hE
  have htake := List.Pairwise.sublist (List.take_sublist 10 _) hs
  refine ⟨List.length_take_le 10 _, ?_, ?_⟩
  · refine htake.imp ?_
    intro a b h
    rcases h with h | ⟨h, -⟩ <;> omega
  · refine htake.imp ?_
    intro a b h heq
    rcases h with h | ⟨-, h2⟩
    · omega
    · exact h2

theorem mcCounts_append_singleton (options : List String) (o : String)
    (resp : List Value) :
    mcCounts (options ++ [o]) resp
      = setKey (mcCounts options resp) o (resp.count (Value.str o)) := by
  simp [mcCounts, List.foldl_append]

theorem setKey_of_not_mem (m : List (String × Nat)) (k : String) (v : Nat)
    (h : k ∉ keysOf m) : setKey m k v = m ++ [(k, v)] := by
  induction m with
  | nil => rfl
  | cons p rest ih =>
      obtain ⟨k', v'⟩ := p
      rw [show keysOf ((k', v') :: rest) = k' :: keysOf rest from rfl] at h
      have hk : ¬ k' = k := by
        intro h'
        exact h (by rw [h']; exact List.mem_cons_self _ _)
      have hr : k ∉ keysOf rest := fun h' => h (List.mem_cons_of_mem _ h')
      simp [setKey, hk, ih hr]

theorem setKey_map_self (ks : List String) (c : String → Nat) (o : String)
    (hnd : ks.Nodup) (ho : o ∈ ks) :
    setKey (ks.map (fun k => (k, c k))) o (c o)
      = ks.map (fun k => (k, c k)) := by
  induction ks with
  | nil => cases ho
  | cons a ks ih =>
      rcases List.nodup_cons.mp hnd with ⟨ha, hnd'⟩
      by_cases hao : a = o
      · subst hao
        simp [setKey]
      · have ho' : o ∈ ks := by
          rcases List.mem_cons.mp ho with h | h
          · exact absurd h.symm hao
          · exact h
        simp [setKey, hao, ih hnd' ho']

theorem mcCounts_eq (options : List String) (resp : List Value) :
    mcCounts options resp
      = (firstKeys options).map (fun o => (o, resp.count (Value.str o))) := by
  induction options using List.reverseRecOn with
  | nil => rfl
  | append_singleton options o ih =>
      rw [mcCounts_append_singleton, ih, firstKeys_append_singleton]
      by_cases ho : o ∈ options
      · rw [if_pos ho, List.append_nil]
        exact setKey_map_self _ _ _ (nodup_firstKeys options)
          ((mem_firstKeys o options).mpr ho)
      · rw [if_neg ho]
        have hfk : o ∉ keysOf
            ((firstKeys options).map (fun k => (k, resp.count (Value.str k)))) := by
          rw [keysOf_map_key]
          exact fun h => ho ((mem_firstKeys o options).mp h)
        rw [setKey_of_not_mem _ _ _ hfk, List.map_append]
        rfl

theorem sum_map_add (f g : String → Nat) (l : List String) :
    (l.map (fun a => f a + g a)).sum = (l.map f).sum + (l.map g).sum := by
  induction l with
  | nil => rfl
  | cons a l ih =>
      simp only [List.map_cons, List.sum_cons, ih]
      omega

theorem sum_indicator_zero (K : List String) (o₀ : String)
    (h : ∀ o ∈ K, ¬ o₀ = o) :
    (K.map (fun o => if o₀ = o then 1 else 0)).sum = 0 := by
  induction K with
  | nil => rfl
  | cons a K ih =>
      simp only [List.map_cons, List.sum_cons,
        if_neg (h a (List.mem_cons_self _ _))]
      simpa using ih (fun o ho => h o (List.mem_cons_of_mem _ ho))

theorem sum_indicator_one (K : List String) (o₀ : String)
    (hnd : K.Nodup) (ho : o₀ ∈ K) :
    (K.map (fun o => if o₀ = o then 1 else 0)).sum = 1 := by
  induction K with
  | nil => cases ho
  | cons a K ih =>
      rcases List.nodup_cons.mp hnd with ⟨ha, hnd'⟩
      by_cases hao : o₀ = a
      · subst hao
        simp only [List.map_cons, List.sum_cons, if_pos rfl]
        rw [sum_indicator_zero K o₀ (fun o hmem heq => ha (heq ▸ hmem))]
        simp
      · have ho' : o₀ ∈ K := by
          rcases List.mem_cons.mp ho with h | h
          · exact absurd h hao
          · exact h
        simp only [List.map_cons, List.sum_cons, if_neg hao]
        rw [ih hnd' ho']

theorem sum_counts (K : List String) (resp : List Value)
    (hnd : K.Nodup)
    (h : ∀ r ∈ resp, ∃ o ∈ K, r = Value.str o) :
    (K.map (fun o => resp.count (Value.str o))).sum = resp.length := by
  induction resp with
  | nil => simp
  | cons r rs ih =>
      have hsplit : ∀ o : String,
          (r :: rs).count (Value.str o)
            = rs.count (Value.str o) + (if r = Value.str o then 1 else 0) := by
        intro o
        rw [List.count_cons]
        by_cases hr : r = Value.str o
        · simp [hr]
        · simp [hr, beq_eq_false_iff_ne.mpr hr]
      have hmap : K.map (fun o => (r :: rs).count (Value.str o))
          = K.map (fun o =>
              rs.count (Value.str o) + (if r = Value.str o then 1 else 0)) :=
        List.map_congr_left (fun o _ => hsplit o)
      rw [hmap, sum_map_add]
      have hrs := ih (fun r' hr' => h r' (List.mem_cons_of_mem _ hr'))
      rcases h r (List.mem_cons_self _ _) with ⟨o₀, ho₀, rfl⟩
      have hind : K.map (fun o => if Value.str o₀ = Value.str o then 1 else 0)
          = K.map (fun o => if o₀ = o then 1 else 0) := by
        apply List.map_congr_left
        intro o _
        by_cases heq : o₀ = o
        · simp [heq]
        · simp [heq, fun hc => heq (Value.str.inj hc)]
      rw [hind, sum_indicator_one K o₀ hnd ho₀, hrs]
      simp

/-- C5: for every sequence of accepted multiple-choice responses, the
sum of the counts in the chart aggregate equals the number of accepted
responses, and every key of the aggregate is one of the declared
options; accepted means the value is one of the declared option
strings, which is the only shape the participant UI can submit. -/
theorem C5_theorem (q : Question) (opts : List String) (resp : List Value)
    (hq : q.question_type = QuestionType.multiple_choice)
    (ho : q.options = some opts)
    (h : ∀ r ∈ resp, ∃ o ∈ opts, r = Value.str o) :
    ((getChartData q resp).map Prod.snd).sum = resp.length ∧
    ∀ p ∈ getChartData q resp, p.1 ∈ opts := by
  have hchart : getChartData q resp = mcCounts opts resp := by
    unfold getChartData
    rw [hq, ho]
    rfl
  rw [hchart, mcCounts_eq]
  constructor
  · rw [List.map_map]
    have : (Prod.snd ∘ fun o => (o, resp.count (Value.str o)))
        = fun o => resp.count (Value.str o) := rfl
    rw [this]
    exact sum_counts _ _ (nodup_firstKeys opts)
      (fun r hr => by
        rcases h r hr with ⟨o, hoo, rfl⟩
        exact ⟨o, (mem_firstKeys o opts).mpr hoo, rfl⟩)
  · intro p hp
    rcases List.mem_map.mp hp with ⟨o, hoo, rfl⟩
    exact (mem_firstKeys o opts).mp hoo

/-- C5 witness: the theorem applied to a concrete question with options
A, B and the accepted responses A, A, B. -/
theorem C5_witness :
    ((getChartData q0 [Value.str "A", Value.str "A", Value.str "B"]).map
        Prod.snd).sum
      = [Value.str "A", Value.str "A", Value.str "B"].length ∧
    ∀ p ∈ getChartData q0 [Value.str "A", Value.str "A", Value.str "B"],
      p.1 ∈ ["A", "B"] :=
  C5_theorem q0 ["A", "B"] [Value.str "A", Value.str "A", Value.str "B"]
    rfl rfl (by decide)

/-- C4: for a rating question the chart aggregate maps every integer 1
through 10 to a count, in that key order, and the response sequence
7, 3, 7 yields count 2 for 7, count 1 for 3 and 0 elsewhere. -/
theorem C4_theorem :
    (∀ resp : List Value, (getChartData qRating resp).map Prod.fst
        = ["1", "2", "3", "4", "5", "6", "7", "8", "9", "10"]) ∧
    getChartData qRating [Value.num 7, Value.num 3, Value.num 7]
      = [("1", 0), ("2", 0), ("3", 1), ("4", 0), ("5", 0),
         ("6", 0), ("7", 2), ("8", 0), ("9", 0), ("10", 0)] := by
  constructor
  · intro resp
    rfl
  · decide

/-- C6: with a non-empty question list, nextQuestion at the last index
leaves the whole presenter state unchanged (so no question-changed
update of any kind is produced), and prevQuestion at index 0 likewise
is a no-op rather than an error. -/
theorem C6_theorem (st : PresenterState) :
    (st.questions ≠ [] →
      st.currentQuestionIndex = st.questions.length - 1 →
      nextQuestion st = st) ∧
    (st.currentQuestionIndex = 0 → prevQuestion st = st) := by
  constructor
  · intro _ hlast
    unfold nextQuestion
    rw [if_neg]
    omega
  · intro h0
    unfold prevQuestion
    rw [if_neg]
    omega

/-- C6 witness: the theorem applied at the last index of a two-question
state and at index 0 of st0. -/
theorem C6_witness :
    nextQuestion ⟨1, [q0, q1], [], 0⟩ = (⟨1, [q0, q1], [], 0⟩ : PresenterState) ∧
    prevQuestion st0 = st0 :=
  ⟨(C6_theorem ⟨1, [q0, q1], [], 0⟩).1 (by decide) (by decide),
   (C6_theorem st0).2 rfl⟩

/-- C7: for the open-text and word-cloud question kinds, an empty or
whitespace-only text answer is rejected by submitAnswer with the
Answer Required rejection (the EmptyAnswer case of the spec) before any
response is recorded. -/
theorem C7_theorem (qtype : PQType) (textAnswer : String)
    (selectedAnswer : Option Value)
    (hq : qtype = PQType.openText ∨ qtype = PQType.wordCloud)
    (ht : jsTrim textAnswer = "") :
    submitAnswer qtype textAnswer selectedAnswer
      = SubmitResult.answerRequired := by
  rcases hq with rfl | rfl <;> simp [submitAnswer, ht]

/-- C7 witness: a whitespace-only answer to the word-cloud question is
rejected. -/
theorem C7_witness :
    submitAnswer PQType.wordCloud "   " none = SubmitResult.answerRequired :=
  C7_theorem PQType.wordCloud "   " none (Or.inr rfl) (by decide)

/-- C8: the claim states that an out-of-range rating such as 11 is
rejected at ingestion with OutOfRangeRating.  The code performs no range
validation: submitAnswer accepts any non-null selected value
(PollParticipant.tsx lines 80-87), so rating 11 is accepted, not
rejected. -/
theorem C8_counterexample :
    submitAnswer PQType.scale "" (some (Value.num 11)) = SubmitResult.accepted :=
  rfl

/-- C8 amended: an out-of-range rating such as 11 passes ingestion
unrejected (submitAnswer only checks that some value was selected), and
the rating aggregate is left unchanged only because getChartData counts
the fixed keys 1 through 10, silently dropping the out-of-range
value. -/
theorem C8_amended :
    submitAnswer PQType.scale "" (some (Value.num 11)) = SubmitResult.accepted ∧
    ∀ resp : List Value,
      getChartData qRating (resp ++ [Value.num 11]) = getChartData qRating resp := by
  refine ⟨rfl, ?_⟩
  intro resp
  show ratingChart (resp ++ [Value.num 11]) = ratingChart resp
  unfold ratingChart
  apply List.map_congr_left
  intro i hi
  rcases List.mem_range'_1.mp hi with ⟨h1, h2⟩
  have hne : ¬ Value.num 11 = Value.num (Int.ofNat i) := by
    intro hc
    have h11 : Int.ofNat i = 11 := (Value.num.inj hc).symm
    have h11' : i = 11 := Int.ofNat.inj h11
    omega
  rw [List.count_append, List.count_singleton,
    if_neg (by simpa using hne), Nat.add_zero]

theorem lookup_pushToKey_self (m : List (String × List Value)) (k : String)
    (v : Value) :
    lookupList (pushToKey m k v) k = lookupList m k ++ [v] := by
  induction m with
  | nil => simp [pushToKey, lookupList]
  | cons p rest ih =>
      obtain ⟨k', vs⟩ := p
      by_cases h : k' = k
      · subst h
        simp [pushToKey, lookupList]
      · simp [pushToKey, lookupList, h, ih]

theorem lookup_pushToKey_ne (m : List (String × List Value)) (k' k : String)
    (v : Value) (h : ¬ k' = k) :
    lookupList (pushToKey m k' v) k = lookupList m k := by
  induction m with
  | nil => simp [pushToKey, lookupList, h]
  | cons p rest ih =>
      obtain ⟨k₀, vs⟩ := p
      by_cases h0 : k₀ = k'
      · subst h0
        simp [pushToKey, lookupList, h]
      · by_cases h1 : k₀ = k
        · subst h1
          simp [pushToKey, lookupList, h0]
        · simp [pushToKey, lookupList, h0, h1, ih]

theorem questions_onResponseInsert (st : PresenterState) (qid : String)
    (v : Value) :
    (onResponseInsert st qid v).questions = st.questions := by
  unfold onResponseInsert
  split <;> rfl

theorem questions_applyEvents (st : PresenterState)
    (evs : List (String × Value)) :
    (applyEvents st evs).questions = st.questions := by
  induction evs generalizing st with
  | nil => rfl
  | cons e evs ih =>
      rw [show applyEvents st (e :: evs)
            = applyEvents (onResponseInsert st e.1 e.2) evs from rfl]
      rw [ih, questions_onResponseInsert]

theorem lookup_applyEvents (evs : List (String × Value)) (st : PresenterState)
    (qid : String) (hq : qid ∈ st.questions.map Question.id) :
    lookupList (applyEvents st evs).responses qid
      = lookupList st.responses qid
          ++ (evs.filter (fun e => e.1 == qid)).map Prod.snd := by
  induction evs generalizing st with
  | nil => simp [applyEvents]
  | cons e evs ih =>
      obtain ⟨q', v'⟩ := e
      rw [show applyEvents st ((q', v') :: evs)
            = applyEvents (onResponseInsert st q' v') evs from rfl]
      have hq' : qid ∈ (onResponseInsert st q' v').questions.map Question.id := by
        rw [questions_onResponseInsert]
        exact hq
      rw [ih _ hq']
      by_cases he : q' = qid
      · subst he
        have hmem : q' ∈ st.questions.map Question.id := hq
        unfold onResponseInsert
        rw [if_pos hmem]
        rw [show ({ st with
              responses := pushToKey st.responses q' v',
              participantCount := st.participantCount + 1 } :
                PresenterState).responses = pushToKey st.responses q' v' from rfl]
        rw [lookup_pushToKey_self]
        simp [List.filter_cons, List.append_assoc]
      · have hbe : ((q', v').1 == qid) = false := beq_eq_false_iff_ne.mpr he
        simp only [List.filter_cons, hbe, Bool.false_eq_true, if_false]
        unfold onResponseInsert
        by_cases hmem : q' ∈ st.questions.map Question.id
        · rw [if_pos hmem]
          rw [show ({ st with
                responses := pushToKey st.responses q' v',
                participantCount := st.participantCount + 1 } :
                  PresenterState).responses = pushToKey st.responses q' v' from rfl]
          rw [lookup_pushToKey_ne _ _ _ _ he]
        · rw [if_neg hmem]

/-- C3: the claim states that a submission for a question other than the
current one is rejected with StaleQuestion and changes no aggregate.
In the code the realtime subscription accepts the INSERT event for any
question of the presentation: with current question q0, an event for q1
is appended to the q1 response list, changing that aggregate. -/
theorem C3_counterexample :
    currentQuestionId st0 = some "q0" ∧
    (onResponseInsert st0 "q1" (Value.str "hello")).responses ≠ st0.responses ∧
    lookupList (onResponseInsert st0 "q1" (Value.str "hello")).responses "q1"
      = [Value.str "hello"] := by
  decide

/-- C3 amended: a response event is accepted for every question id that
belongs to the presentation, current or not, and is appended to that
question response list; only events whose question id is outside the
presentation are filtered out (by the subscription filter), with no
state change.  No StaleQuestion rejection exists. -/
theorem C3_amended (st : PresenterState) (qid : String) (v : Value) :
    (qid ∈ st.questions.map Question.id →
      lookupList (onResponseInsert st qid v).responses qid
        = lookupList st.responses qid ++ [v]) ∧
    (qid ∉ st.questions.map Question.id → onResponseInsert st qid v = st) := by
  constructor
  · intro hmem
    unfold onResponseInsert
    rw [if_pos hmem]
    exact lookup_pushToKey_self _ _ _
  · intro hmem
    unfold onResponseInsert
    rw [if_neg hmem]

/-- C3 witness: the amended statement applied at st0 to an event for the
non-current question q1. -/
theorem C3_witness :
    lookupList (onResponseInsert st0 "q1" (Value.str "hello")).responses "q1"
      = lookupList st0.responses "q1" ++ [Value.str "hello"] :=
  (C3_amended st0 "q1" (Value.str "hello")).1 (by decide)

/-- C9 amended: for every question of the presentation the open-ended
aggregate is the ordered sequence of its raw responses in arrival
order, append-only, with no maximum retained count: after any event
stream it equals the previous list extended by the payloads of exactly
the delivered events for that question, in order. -/
theorem C9_amended (st : PresenterState) (qid : String)
    (evs : List (String × Value))
    (hq : qid ∈ st.questions.map Question.id) :
    lookupList (applyEvents st evs).responses qid
      = lookupList st.responses qid
          ++ (evs.filter (fun e => e.1 == qid)).map Prod.snd :=
  lookup_applyEvents evs st qid hq

/-- C9 witness: the amended statement applied at st0 to one event. -/
theorem C9_witness :
    lookupList (applyEvents st0 [("q0", Value.str "A")]).responses "q0"
      = lookupList st0.responses "q0"
          ++ (([("q0", Value.str "A")].filter (fun e => e.1 == "q0")).map
                Prod.snd) :=
  C9_amended st0 "q0" [("q0", Value.str "A")] (by decide)

/-- C9: the claim states the open-ended aggregate is capped at a
configurable maximum retained count.  No such cap exists in the code:
after 1000001 events for q0 the retained list has length 1000001. -/
theorem C9_counterexample :
    (lookupList (applyEvents st0
        (List.replicate 1000001 ("q0", Value.str "x"))).responses "q0").length
      = 1000001 := by
  rw [lookup_applyEvents _ _ _ (by decide)]
  rw [show lookupList st0.responses "q0" = [] from rfl]
  rw [List.filter_replicate, if_pos (by decide), List.map_replicate]
  rw [List.nil_append, List.length_replicate]

theorem respTotal_pushToKey (m : List (String × List Value)) (k : String)
    (v : Value) :
    respTotal (pushToKey m k v) = respTotal m + 1 := by
  induction m with
  | nil => simp [pushToKey, respTotal]
  | cons p rest ih =>
      obtain ⟨k', vs⟩ := p
      by_cases h : k' = k
      · subst h
        simp [pushToKey, respTotal]
        omega
      · simp only [pushToKey, if_neg h]
        simp only [respTotal, List.map_cons, List.sum_cons] at ih ⊢
        omega

theorem respTotal_group (data : List (String × Value)) :
    respTotal (groupResponses data) = data.length := by
  induction data using List.reverseRecOn with
  | nil => rfl
  | append_singleton data r ih =>
      have hstep : groupResponses (data ++ [r])
          = pushToKey (groupResponses data) r.1 r.2 := by
        simp [groupResponses, List.foldl_append]
      rw [hstep, respTotal_pushToKey, ih]
      simp

theorem participantCount_eq_respTotal (evs : List (String × Value))
    (st : PresenterState)
    (h : st.participantCount = respTotal st.responses) :
    (applyEvents st evs).participantCount
      = respTotal (applyEvents st evs).responses := by
  induction evs generalizing st with
  | nil => exact h
  | cons e evs ih =>
      rw [show applyEvents st (e :: evs)
            = applyEvents (onResponseInsert st e.1 e.2) evs from rfl]
      apply ih
      unfold onResponseInsert
      split
      · show st.participantCount + 1 = respTotal (pushToKey st.responses e.1 e.2)
        rw [respTotal_pushToKey, h]
      · exact h

theorem participantCount_applyEvents (evs : List (String × Value))
    (st : PresenterState)
    (h : ∀ e ∈ evs, e.1 ∈ st.questions.map Question.id) :
    (applyEvents st evs).participantCount
      = st.participantCount + evs.length := by
  induction evs generalizing st with
  | nil => rfl
  | cons e evs ih =>
      rw [show applyEvents st (e :: evs)
            = applyEvents (onResponseInsert st e.1 e.2) evs from rfl]
      rw [ih _ (fun e' he' => by
        rw [questions_onResponseInsert]
        exact h e' (List.mem_cons_of_mem _ he'))]
      unfold onResponseInsert
      rw [if_pos (h e (List.mem_cons_self _ _))]
      show st.participantCount + 1 + evs.length
        = st.participantCount + (e :: evs).length
      simp only [List.length_cons]
      omega

/-- C10: the presenter-view participant count equals the total number of
response records across all questions, not the number of distinct
participants: it is initialized to the number of fetched response rows
and incremented by one for every delivered response event. -/
theorem C10_theorem (st : PresenterState) (data : List (String × Value))
    (evs : List (String × Value))
    (h : ∀ e ∈ evs, e.1 ∈ st.questions.map Question.id) :
    (applyEvents (fetchResponsesUpdate st data) evs).participantCount
      = data.length + evs.length ∧
    (applyEvents (fetchResponsesUpdate st data) evs).participantCount
      = totalResponses (applyEvents (fetchResponsesUpdate st data) evs) := by
  have hq : (fetchResponsesUpdate st data).questions = st.questions := rfl
  constructor
  · rw [participantCount_applyEvents _ _ (fun e he => by
      rw [hq]
      exact h e he)]
    rfl
  · exact participantCount_eq_respTotal _ _ (by
      show data.length = respTotal (groupResponses data)
      rw [respTotal_group])

/-- C10 witness: one fetched row and one delivered event give count 2,
equal to the total number of records held. -/
theorem C10_witness :
    (applyEvents (fetchResponsesUpdate st0 [("q0", Value.str "A")])
        [("q1", Value.str "w")]).participantCount
      = [(("q0" : String), Value.str "A")].length
          + [(("q1" : String), Value.str "w")].length ∧
    (applyEvents (fetchResponsesUpdate st0 [("q0", Value.str "A")])
        [("q1", Value.str "w")]).participantCount
      = totalResponses (applyEvents
          (fetchResponsesUpdate st0 [("q0", Value.str "A")])
          [("q1", Value.str "w")]) :=
  C10_theorem st0 [("q0", Value.str "A")] [("q1", Value.str "w")] (by decide)

end MentiLive
